import Mathlib

set_option maxHeartbeats 1000000

/-!
Verification model of the omegaUp gitserver push-validation and
reference-update pipeline, together with the `omegaup-update-problem`
CLI helpers.  Pure data (trees, commits, settings) is embedded as
inductive values; git object ids are content-addressed, so commit
values double as their ids.  JSON (de)serialization is modelled by
typed blob constructors: `Blob.raw` stands for bytes that do not parse
as the expected schema.
-/

/-- Resource limits of a problem (`common.LimitsSettings`).  Numeric
fields are modelled as naturals; units are irrelevant to the claims. -/
structure LimitsSettings where
  timeLimit : Nat
  memoryLimit : Nat
  overallWallTimeLimit : Nat
  extraWallTime : Nat
  outputLimit : Nat
deriving DecidableEq, Repr

/-- Validator section of `settings.json` (`common.ValidatorSettings`).
The tolerance is a float in Go; only copied around here, so an integer
stands in for it. -/
structure ValidatorSettings where
  name : String
  tolerance : Int
  limits : Option LimitsSettings
deriving DecidableEq, Repr

/-- Problem settings (`common.ProblemSettings`): the schema of the
`settings.json` blob. -/
structure ProblemSettings where
  title : String
  slow : Bool
  limits : LimitsSettings
  validator : ValidatorSettings
  cases : List (String × Nat)
  interactive : Option String
deriving DecidableEq, Repr

/-- One line of the `refs/meta/review` ledger file.  A `none` uuid
models a line whose uuid field is missing or malformed. -/
structure LedgerEntry where
  uuid : Option String
  author : String
  summary : String
deriving DecidableEq, Repr

/-- One newline-delimited JSON comment entry of a per-commit review
file.  `none` fields model absent JSON fields; `hasRange` models the
presence of a `range` object. -/
structure CommentEntry where
  author : String
  done : Bool
  filename : String
  iterationUuid : Option String
  message : String
  uuid : Option String
  parentUuid : Option String
  hasRange : Bool
deriving DecidableEq, Repr

/-- The `config.json` schema of `refs/meta/config`. -/
structure PublishingConfig where
  mode : String
  repository : String
  target : Option String
deriving DecidableEq, Repr

/-- A blob of the object database, tagged with the schema it parses
as.  `raw` models bytes that are not valid JSON of the expected shape
(or, for the ledger, a file that does not end in a newline). -/
inductive Blob where
  | raw (s : String)
  | settings (s : ProblemSettings)
  | ledger (entries : List LedgerEntry)
  | comments (entries : List CommentEntry)
  | config (c : PublishingConfig)
deriving DecidableEq, Repr

/-- A commit object.  `oid` models the hex object id used to name
review-target commits (content addressing makes it a function of the
contents; here it is carried as a field).  `iterationTag` is the
`Iteration: <uuid>` trailer parsed from the commit message, `none`
when missing or malformed.  Trees are flat maps from slash-separated
paths to blobs. -/
inductive GitCommit where
  | mk (oid : String) (tree : List (String × Blob)) (author : String)
       (iterationTag : Option String) (parents : List GitCommit)

mutual

/-- Decidable equality of commits (content addressing: two commits are
the same object exactly when all fields agree). -/
def decEqCommit : (a b : GitCommit) → Decidable (a = b)
  | .mk o t a i ps, .mk o' t' a' i' ps' =>
    if h1 : o = o' then
      if h2 : t = t' then
        if h3 : a = a' then
          if h4 : i = i' then
            match decEqCommitList ps ps' with
            | isTrue h5 => isTrue (by rw [h1, h2, h3, h4, h5])
            | isFalse h5 => isFalse (fun he => by cases he; exact h5 rfl)
          else isFalse (fun he => by cases he; exact h4 rfl)
        else isFalse (fun he => by cases he; exact h3 rfl)
      else isFalse (fun he => by cases he; exact h2 rfl)
    else isFalse (fun he => by cases he; exact h1 rfl)

/-- Decidable equality of commit lists. -/
def decEqCommitList : (as bs : List GitCommit) → Decidable (as = bs)
  | [], [] => isTrue rfl
  | [], _ :: _ => isFalse (fun he => by cases he)
  | _ :: _, [] => isFalse (fun he => by cases he)
  | x :: xs, y :: ys =>
    match decEqCommit x y with
    | isTrue hx =>
      match decEqCommitList xs ys with
      | isTrue hxs => isTrue (by rw [hx, hxs])
      | isFalse hxs => isFalse (fun he => by injection he with _ h2; exact hxs h2)
    | isFalse hx => isFalse (fun he => by injection he with h1 _; exact hx h1)

end

instance : DecidableEq GitCommit := decEqCommit

/-- Tree of a commit. -/
def GitCommit.tree : GitCommit → List (String × Blob)
  | .mk _ t _ _ _ => t

/-- Object id of a commit. -/
def GitCommit.oid : GitCommit → String
  | .mk o _ _ _ _ => o

/-- Author of a commit. -/
def GitCommit.author : GitCommit → String
  | .mk _ _ a _ _ => a

/-- Iteration uuid parsed from the commit message. -/
def GitCommit.iterationTag : GitCommit → Option String
  | .mk _ _ _ i _ => i

/-- Parent commits. -/
def GitCommit.parents : GitCommit → List GitCommit
  | .mk _ _ _ _ ps => ps

/-- The chain of commits reachable from `c` along first parents,
starting at `c` itself. -/
def firstParentChain : GitCommit → List GitCommit
  | .mk o t a i [] => [.mk o t a i []]
  | .mk o t a i (p :: ps) => .mk o t a i (p :: ps) :: firstParentChain p

/-- Boolean test that `p` is a leading segment (a byte-level prefix of
the serialized file, entry for entry) of `l`. -/
def listLeads {α : Type} [BEq α] : List α → List α → Bool
  | [], _ => true
  | _ :: _, [] => false
  | a :: as, b :: bs => a == b && listLeads as bs

/-- Boolean string-prefix test over the underlying character lists
(kernel-reducible, unlike the byte-position-based library version). -/
def strStarts (p s : String) : Bool := listLeads p.data s.data

/-- Boolean string-suffix test over the underlying character lists. -/
def strEnds (s suffix : String) : Bool := listLeads suffix.data.reverse s.data.reverse

/-- Drop the first `n` characters of a string. -/
def strDrop (s : String) (n : Nat) : String := String.mk (s.data.drop n)

/-- Drop the last `n` characters of a string. -/
def strDropRight (s : String) (n : Nat) : String :=
  String.mk (s.data.take (s.data.length - n))

/-- Split a character list at every occurrence of `c`. -/
def splitOnChar (c : Char) : List Char → List (List Char)
  | [] => [[]]
  | x :: xs =>
    match splitOnChar c xs with
    | [] => [[]]
    | h :: t => if x == c then [] :: h :: t else (x :: h) :: t

/-- Whether `sub` occurs as a contiguous run of `l`. -/
def hasSub (sub : List Char) : List Char → Bool
  | [] => listLeads sub ([] : List Char)
  | x :: xs => listLeads sub (x :: xs) || hasSub sub xs

/-- Parse a decimal natural from a non-empty digit list. -/
def parseNatList (l : List Char) : Option Nat :=
  if l.isEmpty then none
  else
    l.foldl
      (fun acc c =>
        match acc with
        | none => none
        | some n =>
          if 48 <= c.toNat && c.toNat <= 57 then some (n * 10 + (c.toNat - 48)) else none)
      (some 0)

/-- The references table of one bare repository: named pointers to
commits. -/
abbrev RepoState := List (String × GitCommit)

/-- Write a reference: replace its target, creating it when absent.
References are never removed. -/
def setRef (st : RepoState) (name : String) (c : GitCommit) : RepoState :=
  (name, c) :: st.filter (fun e => e.1 != name)

/-- Current tips of all `refs/changes/*` references. -/
def changesTips (st : RepoState) : List GitCommit :=
  st.filterMap (fun e =>
    if strStarts "refs/changes/" e.1 then some e.2 else none)

/-- Commits known to the repository: the first-parent closure of every
reference (the model of the object database contents consulted when a
review file names a commit). -/
def knownCommits (st : RepoState) : List GitCommit :=
  st.foldr (fun e acc => firstParentChain e.2 ++ acc) []

/-- Visibility classes of the derived sibling branches. -/
inductive Vis where
  | pub
  | prot
  | priv
deriving DecidableEq, Repr

/-- Name of the sibling reference maintained for a visibility class. -/
def sibName : Vis → String
  | .pub => "refs/heads/public"
  | .prot => "refs/heads/protected"
  | .priv => "refs/heads/private"

/-- Modelled from the spec: the visibility class of a tree path (spec
section 4.4, visibility filter).  The repository tests
(`validateReferences` in `main_test.go`) require a statements-only
change to leave `refs/heads/protected` and `refs/heads/private`
untouched, so the three projections partition the tree: statements
and examples feed the public view, cases the protected one, and
everything else (settings, solutions, validators, interactive
sources) the private one. -/
def pathVisibility (p : String) : Vis :=
  if strStarts "statements/" p || strStarts "examples/" p then .pub
  else if strStarts "cases/" p then .prot
  else .priv

/-- The visibility-filtered projection of a tree. -/
def projectTree (v : Vis) (t : List (String × Blob)) : List (String × Blob) :=
  t.filter (fun e => pathVisibility e.1 == v)

/-- Advance one sibling reference toward the projection of the new
master tree: when the projection already equals the sibling's tree the
sibling keeps its commit, otherwise a new commit carrying the
projection is written on top of it. -/
def advSib (tree : List (String × Blob)) (author : String) (v : Vis) (st : RepoState) : RepoState :=
  let proj := projectTree v tree
  match st.lookup (sibName v) with
  | some old => if old.tree == proj then st else setRef st (sibName v) (.mk "" proj author none [old])
  | none => setRef st (sibName v) (.mk "" proj author none [])

/-- Advance `refs/heads/master` to a commit carrying the accepted tree
(parented on the previous master) and bring the three sibling
references up to date with its visibility projections. -/
def advanceMaster (st : RepoState) (c : GitCommit) : RepoState :=
  let newMaster : GitCommit :=
    .mk c.oid c.tree c.author c.iterationTag
      (match st.lookup "refs/heads/master" with
       | some m => [m]
       | none => [])
  let st1 := setRef st "refs/heads/master" newMaster
  advSib c.tree c.author .priv (advSib c.tree c.author .prot (advSib c.tree c.author .pub st1))

/-- Companion `.out` path of a `cases/<name>.in` path. -/
def caseToOut (p : String) : String := strDropRight p 3 ++ ".out"

/-- Companion `.in` path of a `cases/<name>.out` path. -/
def caseToIn (p : String) : String := strDropRight p 4 ++ ".in"

/-- Modelled from the spec: the problem validator (spec section 4.3,
items 1 to 3) on a candidate tree — `settings.json` present and
parsing, at least one markdown statement, and `.in`/`.out` case files
paired both ways.  The deeper checks (interactive compilation, size
caps) are outside what the claims exercise. -/
def problemValid (t : List (String × Blob)) : Bool :=
  (match t.lookup "settings.json" with
   | some (Blob.settings _) => true
   | _ => false)
  && t.any (fun e => strStarts "statements/" e.1 && strEnds e.1 ".markdown")
  && t.all (fun e =>
       (!(strStarts "cases/" e.1 && strEnds e.1 ".in")
         || t.any (fun g => g.1 == caseToOut e.1))
       && (!(strStarts "cases/" e.1 && strEnds e.1 ".out")
         || t.any (fun g => g.1 == caseToIn e.1)))

/-- Modelled from the spec: whether a publishing repository URL is
absolute (spec section 4.7). -/
def absoluteURL (s : String) : Bool := hasSub "://".data s.data

/-- Modelled from the spec and `TestConfig`: validation of the parsed
`config.json` contents (spec section 4.7). -/
def configContentError (c : PublishingConfig) : Option String :=
  if c.mode != "mirror" && c.mode != "subdirectory" then
    some "config-invalid-publishing-mode"
  else if !absoluteURL c.repository then
    some "config-repository-not-absolute-url"
  else if c.mode == "subdirectory" && (c.target.getD "") == "" then
    some "config-subdirectory-missing-target"
  else none

/-- Modelled from the spec and `TestConfig`: validation of a tree
pushed to `refs/meta/config`.  Every tree entry must be named
`config.json` (so at most one entry; `TestConfig` shows the empty tree
is accepted), and the single blob must parse and satisfy
`configContentError`. -/
def configError (t : List (String × Blob)) : Option String :=
  if t.any (fun e => e.1 != "config.json") then
    some "config-bad-layout: refs/meta/config can only contain a single config.json file"
  else
    match t.lookup "config.json" with
    | none => none
    | some (Blob.config c) => configContentError c
    | some _ => some "json-parse-error: config.json"

/-- Decidable equality for `Except` results, used to evaluate the
validators on concrete inputs. -/
def exceptDecEq {ε α : Type} [DecidableEq ε] [DecidableEq α] :
    (a b : Except ε α) → Decidable (a = b)
  | .ok a, .ok b =>
    if h : a = b then isTrue (by rw [h]) else isFalse (fun he => by cases he; exact h rfl)
  | .ok _, .error _ => isFalse (fun he => by cases he)
  | .error _, .ok _ => isFalse (fun he => by cases he)
  | .error a, .error b =>
    if h : a = b then isTrue (by rw [h]) else isFalse (fun he => by cases he; exact h rfl)

instance {ε α : Type} [DecidableEq ε] [DecidableEq α] : DecidableEq (Except ε α) :=
  exceptDecEq

/-- Tree of the current `refs/meta/review` commit; a fresh repository
starts with an empty ledger (`InitRepository` writes one). -/
def prevReviewTree (st : RepoState) : List (String × Blob) :=
  match st.lookup "refs/meta/review" with
  | some c => c.tree
  | none => [("ledger", Blob.ledger [])]

/-- Ledger entries of the current `refs/meta/review` commit. -/
def prevLedger (st : RepoState) : List LedgerEntry :=
  match (prevReviewTree st).lookup "ledger" with
  | some (Blob.ledger l) => l
  | _ => []

/-- Author recorded in the ledger for an iteration uuid. -/
def ledgerAuthor (led : List LedgerEntry) (iu : String) : Option String :=
  match led with
  | [] => none
  | e :: rest => if e.uuid == some iu then some e.author else ledgerAuthor rest iu

/-- Modelled from the spec: the header checks of the review validator
(spec section 4.6, items 1 to 3) — iteration tag present, flat tree,
ledger present, parsed, appended, and its last new line carrying the
tagged uuid.  Returns the tag and the full new ledger. -/
def reviewHeader (st : RepoState) (newC : GitCommit) : Except String (String × List LedgerEntry) :=
  match newC.iterationTag with
  | none => Except.error "review-bad-layout: iteration uuid in commit message missing or malformed"
  | some tag =>
    if newC.tree.any (fun e => e.1.data.contains '/') then
      Except.error "review-bad-layout: refs/meta/review must have a flat tree"
    else
      match newC.tree.lookup "ledger" with
      | none => Except.error "review-bad-layout: missing ledger file"
      | some (Blob.ledger newLed) =>
        if !listLeads (prevLedger st) newLed then
          Except.error "review-bad-layout: ledger must be an append of the previous ledger"
        else
          let newEntries := newLed.drop (prevLedger st).length
          if newEntries.isEmpty || newEntries.any (fun e => e.uuid.isNone) then
            Except.error "review-bad-layout: invalid iteration uuid in ledger entry"
          else
            match newEntries.getLast? with
            | some last =>
              if last.uuid == some tag then Except.ok (tag, newLed)
              else Except.error "review-bad-layout: invalid iteration uuid in ledger entry"
            | none => Except.error "review-bad-layout: invalid iteration uuid in ledger entry"
      | some (Blob.raw _) =>
        Except.error "review-bad-layout: ledger does not end in newline"
      | some _ => Except.error "json-parse-error: appended ledger contents"

/-- Modelled from the spec: the append check of one pre-existing
comment file (spec section 4.6, item 5 and the iteration-presence
rule) — the file must reappear with its old entries as a leading
segment and gain at least one entry for the new iteration. -/
def checkPrevFile (tag : String) (newTree : List (String × Blob)) (f : String)
    (pe : List CommentEntry) : Except String Unit :=
  match newTree.lookup f with
  | some (Blob.comments ne) =>
    if !listLeads pe ne then
      Except.error ("review-bad-layout: unexpected non-append to " ++ f)
    else if !(ne.drop pe.length).any (fun e => e.iterationUuid == some tag) then
      Except.error ("review-bad-layout: failed to find " ++ f ++ " in review iteration")
    else Except.ok ()
  | some _ => Except.error ("review-bad-layout: malformed appended comment in " ++ f)
  | none => Except.error ("review-bad-layout: failed to find " ++ f ++ " in review iteration")

/-- Run `checkPrevFile` over every comment file of the previous
review tree. -/
def checkPrevFiles (tag : String) (newTree : List (String × Blob)) :
    List (String × Blob) → Except String Unit
  | [] => Except.ok ()
  | (f, pb) :: rest =>
    match pb with
    | Blob.comments pe =>
      match checkPrevFile tag newTree f pe with
      | Except.error e => Except.error e
      | Except.ok () => checkPrevFiles tag newTree rest
    | Blob.raw _ => checkPrevFiles tag newTree rest
    | Blob.settings _ => checkPrevFiles tag newTree rest
    | Blob.ledger _ => checkPrevFiles tag newTree rest
    | Blob.config _ => checkPrevFiles tag newTree rest

/-- Modelled from the spec: per-entry checks of one review comment
file (spec section 4.6, item 6).  `seen` carries the uuids of earlier
entries of the same file.  The comment author must match the author
the ledger records for the referenced iteration (the behaviour
`TestServerCreateReview` pins down). -/
def checkEntryList (led : List LedgerEntry) (target : GitCommit) (f : String)
    (seen : List String) : List CommentEntry → Option String
  | [] => none
  | e :: rest =>
    match e.iterationUuid with
    | none => some ("review-bad-layout: invalid iteration uuid in " ++ f)
    | some iu =>
      match ledgerAuthor led iu with
      | none => some ("review-bad-layout: invalid iteration uuid in " ++ f)
      | some la =>
        if e.author != la then some ("review-bad-layout: invalid author in " ++ f)
        else
          match e.uuid with
          | none => some ("review-bad-layout: missing or malformed comment uuid in " ++ f)
          | some u =>
            if seen.contains u then
              some ("review-bad-layout: duplicate comment uuid in " ++ f)
            else if (target.tree.lookup e.filename).isNone then
              some ("review-bad-layout: file " ++ e.filename ++ " not found in " ++ f)
            else
              match e.parentUuid with
              | some p =>
                if e.hasRange then
                  some ("review-bad-layout: cannot specify both parentUuid and range in " ++ f)
                else if !seen.contains p then
                  some ("review-bad-layout: parent uuid missing in " ++ f)
                else if e.message == "" then
                  some ("review-bad-layout: empty comment message in " ++ f)
                else checkEntryList led target f (u :: seen) rest
              | none =>
                if e.message == "" then
                  some ("review-bad-layout: empty comment message in " ++ f)
                else checkEntryList led target f (u :: seen) rest

/-- Modelled from the spec: checks over every comment file of the new
review tree (spec section 4.6, items 4 and 6) — each file must name a
known commit, parse as newline-delimited comment entries, and pass the
per-entry checks. -/
def checkNewFiles (led : List LedgerEntry) (known : List GitCommit) :
    List (String × Blob) → Except String Unit
  | [] => Except.ok ()
  | (f, b) :: rest =>
    match known.find? (fun c => c.oid == f) with
    | none => Except.error ("review-bad-layout: unknown review target " ++ f)
    | some target =>
      match b with
      | Blob.comments ne =>
        match checkEntryList led target f [] ne with
        | some msg => Except.error msg
        | none => checkNewFiles led known rest
      | _ => Except.error ("review-bad-layout: malformed appended comment in " ++ f)

/-- Modelled from the spec: the review ledger validator for a new
commit on `refs/meta/review` (spec section 4.6). -/
def validateReview (st : RepoState) (newC : GitCommit) : Except String Unit :=
  match reviewHeader st newC with
  | Except.error e => Except.error e
  | Except.ok (tag, newLed) =>
    match checkPrevFiles tag newC.tree
        ((prevReviewTree st).filter (fun e => e.1 != "ledger")) with
    | Except.error e => Except.error e
    | Except.ok () =>
      checkNewFiles newLed (knownCommits st)
        (newC.tree.filter (fun e => e.1 != "ledger"))

/-- Result of one requested reference update. -/
inductive RefResult where
  | ok
  | ng (reason : String)
deriving DecidableEq, Repr

/-- The report-status line for one reference. -/
def resultLine (r : String) : RefResult → String
  | RefResult.ok => "ok " ++ r
  | RefResult.ng reason => "ng " ++ r ++ " " ++ reason

/-- One command of a receive-pack request: the target reference and
the commit it should point to afterwards; `none` models the zero oid,
i.e. a deletion request. -/
structure PushCommand where
  refName : String
  newCommit : Option GitCommit
deriving DecidableEq

/-- Rewrite a commit pushed to `refs/changes/*` into its canonical
stored form: contents kept, parent set to the current master (spec
section 4.4). -/
def canonicalChange (st : RepoState) (c : GitCommit) : GitCommit :=
  .mk c.oid c.tree c.author c.iterationTag
    (match st.lookup "refs/heads/master" with
     | some m => [m]
     | none => [])

/-- Modelled from the spec: the reference policy engine (spec section
4.4) applied to one command.  Deletions are refused outright; the
sibling branches are read-only; `refs/heads/master` and
`refs/heads/published` are admin-only — a master update is accepted
when its tip is a current `refs/changes/*` tip or when the protocol
was built with direct pushes to master enabled (the third argument of
`NewGitProtocol`, set in `TestInteractive` and by
`omegaup-update-problem`) and the pushed tree itself passes problem
validation, and a published update must land on the master
first-parent chain; other `refs/heads/*` names are invalid; `refs/changes/*` accepts
validated problem trees; `refs/meta/review` and `refs/meta/config` run
their validators, the latter for admins only. -/
def handleCommand (isAdmin allowDirect : Bool) (st : RepoState) (cmd : PushCommand) :
    RepoState × RefResult :=
  match cmd.newCommit with
  | none => (st, RefResult.ng "delete-unallowed")
  | some newC =>
    if cmd.refName == "refs/heads/public" || cmd.refName == "refs/heads/protected"
        || cmd.refName == "refs/heads/private" then
      (st, RefResult.ng "read-only")
    else if cmd.refName == "refs/heads/master" then
      if !isAdmin then (st, RefResult.ng "forbidden")
      else if (changesTips st).any (fun c => c == newC)
          || (allowDirect && problemValid newC.tree) then
        (advanceMaster st newC, RefResult.ok)
      else (st, RefResult.ng "problem-bad-layout: invalid problem tree")
    else if cmd.refName == "refs/heads/published" then
      if !isAdmin then (st, RefResult.ng "forbidden")
      else
        match st.lookup "refs/heads/master" with
        | some m =>
          if (firstParentChain m).any (fun c => c == newC) then
            (setRef st "refs/heads/published" newC, RefResult.ok)
          else (st, RefResult.ng "published-must-point-to-commit-in-master")
        | none => (st, RefResult.ng "published-must-point-to-commit-in-master")
    else if strStarts "refs/heads/" cmd.refName then
      (st, RefResult.ng "invalid-ref")
    else if strStarts "refs/changes/" cmd.refName then
      if problemValid newC.tree then
        (setRef st cmd.refName (canonicalChange st newC), RefResult.ok)
      else (st, RefResult.ng "problem-bad-layout: invalid problem tree")
    else if cmd.refName == "refs/meta/review" then
      match validateReview st newC with
      | Except.ok () => (setRef st "refs/meta/review" newC, RefResult.ok)
      | Except.error e => (st, RefResult.ng e)
    else if cmd.refName == "refs/meta/config" then
      if !isAdmin then (st, RefResult.ng "restricted-ref")
      else
        match configError newC.tree with
        | none => (setRef st "refs/meta/config" newC, RefResult.ok)
        | some e => (st, RefResult.ng e)
    else (st, RefResult.ng "invalid-ref")

/-- Run the policy engine over the commands of one push, in the order
received, threading the reference table. -/
def processCommands (isAdmin allowDirect : Bool) (st : RepoState) :
    List PushCommand → RepoState × List String
  | [] => (st, [])
  | c :: cs =>
    let r := handleCommand isAdmin allowDirect st c
    let rest := processCommands isAdmin allowDirect r.1 cs
    (rest.1, resultLine c.refName r.2 :: rest.2)

/-- The default object-count admission limit of the packfile pipeline
(spec section 4.1). -/
def maxPackfileObjects : Nat := 10000

/-- Modelled from the spec: a full receive-pack request (spec sections
4.1 and 4.4).  `allowDirect` is the protocol's direct-push-to-master
switch (the third argument of `NewGitProtocol`); `packObjects` is the
number of objects the pack would introduce, counted by the admission
policy before insertion — a pack over the limit rejects every
requested reference and leaves the repository untouched.  The returned
lines model the report-status payloads, without their trailing
newlines. -/
def processPush (isAdmin allowDirect : Bool) (packObjects : Nat) (cmds : List PushCommand)
    (st : RepoState) : RepoState × List String :=
  if maxPackfileObjects < packObjects then
    (st, "unpack ok" :: cmds.map (fun c => "ng " ++ c.refName ++ " too-many-objects-in-packfile"))
  else
    let r := processCommands isAdmin allowDirect st cmds
    (r.1, "unpack ok" :: r.2)

/-- Modelled from the spec: the default problem settings blob
(`gitservertest.DefaultSettingsJSON`, whose exact contents the spec
leaves open; only its stability matters to the claims). -/
def defaultSettings : ProblemSettings :=
  { title := ""
    slow := false
    limits :=
      { timeLimit := 1000
        memoryLimit := 33554432
        overallWallTimeLimit := 60000
        extraWallTime := 0
        outputLimit := 10240 }
    validator := { name := "token-caseless", tolerance := 0, limits := none }
    cases := []
    interactive := none }

/-- Names of the cases of a problem tree, read off the
`cases/<name>.in` files. -/
def caseNames (files : List (String × Blob)) : List String :=
  files.filterMap (fun e =>
    if strStarts "cases/" e.1 && strEnds e.1 ".in" then
      some (strDropRight (strDrop e.1 6) 3)
    else none)

/-- Parse one `<case> <weight>` line of a testplan. -/
def parseTestplanLine (l : List Char) : Option (String × Nat) :=
  match splitOnChar ' ' l with
  | [n, w] => (parseNatList w).map (fun wn => (String.mk n, wn))
  | _ => none

/-- Parse a testplan file: one `<case> <weight>` entry per
non-empty line. -/
def parseTestplan (s : String) : Option (List (String × Nat)) :=
  ((splitOnChar (Char.ofNat 10) s.data).filter (fun l => !l.isEmpty)).mapM parseTestplanLine

/-- Weight of a case during zip ingestion: the testplan wins when one
was supplied, then the weights of the previously stored settings, then
the default weight 1. -/
def caseWeight (tp : Option (List (String × Nat))) (prior : List (String × Nat))
    (n : String) : Nat :=
  match tp with
  | some l => (l.lookup n).getD 1
  | none => (prior.lookup n).getD 1

/-- The cases section regenerated by zip ingestion. -/
def derivedCases (files : List (String × Blob)) (tp : Option (List (String × Nat)))
    (prior : List (String × Nat)) : List (String × Nat) :=
  (caseNames files).dedup.map (fun n => (n, caseWeight tp prior n))

/-- The files of an ingested zip other than the two the pipeline
consumes (`settings.json` is regenerated, `testplan` is folded into
it). -/
def zipTreeCore (files : List (String × Blob)) : List (String × Blob) :=
  files.filter (fun e => e.1 != "settings.json" && e.1 != "testplan")

/-- The canonical master tree produced from an ingested zip: the
regenerated settings blob followed by the remaining files. -/
def buildZipTree (files : List (String × Blob)) (s : ProblemSettings)
    (tp : Option (List (String × Nat))) : List (String × Blob) :=
  ("settings.json", Blob.settings { s with cases := derivedCases files tp s.cases })
    :: zipTreeCore files

/-- Modelled from the spec: the testplan-dependent tail of zip
ingestion — the testplan must parse and refer only to real cases
(spec section 4.3, item 7), and is then folded into the regenerated
settings. -/
def convertZipWith (files : List (String × Blob)) (s : ProblemSettings) :
    Except String (List (String × Blob)) :=
  match files.lookup "testplan" with
  | none => Except.ok (buildZipTree files s none)
  | some (Blob.raw tpStr) =>
    match parseTestplan tpStr with
    | none => Except.error "problem-bad-layout: invalid testplan"
    | some tp =>
      if tp.all (fun e => (caseNames files).contains e.1) then
        Except.ok (buildZipTree files s (some tp))
      else Except.error "problem-bad-layout: testplan references a missing case"
  | some _ => Except.error "problem-bad-layout: invalid testplan"

/-- Modelled from the spec: zip ingestion (`ConvertZipToPackfile`,
spec section 4.5) reduced to its tree transformation — absence of
`settings.json` is equivalent to the default settings blob, the cases
section is regenerated from the case files and the testplan, and the
testplan file itself is not stored. -/
def convertZip (files : List (String × Blob)) :
    Except String (List (String × Blob)) :=
  match files.lookup "settings.json" with
  | some (Blob.settings s) => convertZipWith files s
  | none => convertZipWith files defaultSettings
  | some _ => Except.error "json-parse-error: settings.json"

/-- Error categories of `omegaup-update-problem` (`base.ErrorWithCategory`
with `gitserver.ErrInternalGit`, `ErrJSONParseError`,
`ErrProblemBadLayout`). -/
inductive UpdateError where
  | internalGit (msg : String)
  | jsonParseError (msg : String)
  | problemBadLayout (msg : String)
deriving DecidableEq, Repr

/-- Modelled from the spec: `githttp.MergeTrees` (spec section 4.2) on
flat path maps — recursive union in which entries of `over` shadow
entries of `under`. -/
def mergeTrees (over under : List (String × Blob)) : List (String × Blob) :=
  over ++ under.filter (fun e => (over.lookup e.1).isNone)

/-- Field rewrite of `commitSettings` (`main.go` lines 488 to 491):
the stored settings keep every field of the previous blob except the
limits and the validator name, tolerance and limits, which come from
the request. -/
def applySettings (old requested : ProblemSettings) : ProblemSettings :=
  { old with
      limits := requested.limits
      validator :=
        { old.validator with
            name := requested.validator.name
            tolerance := requested.validator.tolerance
            limits := requested.validator.limits } }

/-- Embedding of `commitSettings` (`cmd/omegaup-update-problem/main.go`
lines 390 to 514): read `settings.json` of the parent tree, refuse a
change of validator custom-ness, rewrite the copied fields, and commit
the new blob merged over the parent tree (`commitBlobs` builds
`BuildTree` of the one blob merged with the head tree). -/
def commitSettings (parentTree : List (String × Blob)) (requested : ProblemSettings) :
    Except UpdateError (List (String × Blob)) :=
  match parentTree.lookup "settings.json" with
  | none => Except.error (UpdateError.internalGit "failed to find settings.json")
  | some (Blob.settings old) =>
    if old.validator.name != requested.validator.name
        && old.validator.name == "custom" then
      Except.error (UpdateError.problemBadLayout "problem with unused validator")
    else if old.validator.name != requested.validator.name
        && requested.validator.name == "custom" then
      Except.error (UpdateError.problemBadLayout "problem with custom validator missing a validator")
    else
      Except.ok (mergeTrees [("settings.json", Blob.settings (applySettings old requested))] parentTree)
  | some _ => Except.error (UpdateError.jsonParseError "settings.json")

/-- Repository-level effect of `commitSettings`: the head tree is
replaced only on success; every error path returns before anything is
committed. -/
def commitSettingsRepo (parentTree : List (String × Blob)) (requested : ProblemSettings) :
    List (String × Blob) :=
  match commitSettings parentTree requested with
  | Except.ok t => t
  | Except.error _ => parentTree

/-- The initial empty commit a fresh repository starts with. -/
def emptyCommit : GitCommit := .mk "e0" [] "system" none []

/-- A minimal valid problem tree (the fixture of the handler tests). -/
def sampleProblemTree : List (String × Blob) :=
  [("settings.json", Blob.settings defaultSettings),
   ("cases/0.in", Blob.raw "1 2"),
   ("cases/0.out", Blob.raw "3"),
   ("statements/es.markdown", Blob.raw "Sumas")]

/-- A second valid problem tree differing from the first only in the
statement. -/
def sampleProblemTree2 : List (String × Blob) :=
  [("settings.json", Blob.settings defaultSettings),
   ("cases/0.in", Blob.raw "1 2"),
   ("cases/0.out", Blob.raw "3"),
   ("statements/es.markdown", Blob.raw "Restas")]

/-- A commit carrying the first sample tree. -/
def sampleCommit : GitCommit := .mk "c1" sampleProblemTree "author" none []

/-- A commit carrying the second sample tree. -/
def sampleCommit2 : GitCommit := .mk "c2" sampleProblemTree2 "author" none []

/-- A fresh repository: empty master and published, no change refs. -/
def sampleState1 : RepoState :=
  [("refs/heads/master", emptyCommit), ("refs/heads/published", emptyCommit)]

/-- A master commit one step past `sampleCommit` on the first-parent
chain. -/
def sampleMasterChain : GitCommit := .mk "m2" sampleProblemTree2 "author" none [sampleCommit]

/-- Repository whose master has a two-commit first-parent history. -/
def sampleState2 : RepoState :=
  [("refs/heads/master", sampleMasterChain), ("refs/heads/published", emptyCommit)]

/-- Master commit of the sibling-reference scenario. -/
def sampleMaster6 : GitCommit := .mk "m1" sampleProblemTree "author" none []

/-- Sibling commits holding exactly the projections of the master
tree. -/
def samplePublic6 : GitCommit := .mk "p1" (projectTree .pub sampleProblemTree) "author" none []

/-- Protected sibling of the sibling-reference scenario. -/
def sampleProtected6 : GitCommit := .mk "q1" (projectTree .prot sampleProblemTree) "author" none []

/-- Private sibling of the sibling-reference scenario. -/
def samplePrivate6 : GitCommit := .mk "v1" (projectTree .priv sampleProblemTree) "author" none []

/-- Repository in which master and its three siblings are consistent. -/
def sampleState6 : RepoState :=
  [("refs/heads/master", sampleMaster6),
   ("refs/heads/public", samplePublic6),
   ("refs/heads/protected", sampleProtected6),
   ("refs/heads/private", samplePrivate6)]

/-- A well-formed publishing configuration. -/
def sampleConfig : PublishingConfig :=
  { mode := "mirror", repository := "https://github.com/omegaup/test.git", target := none }

/-- Current commit of `refs/meta/config`. -/
def sampleConfigCommit : GitCommit :=
  .mk "cfg0" [("config.json", Blob.config sampleConfig)] "author" none []

/-- A commit with an empty tree (the push `TestConfig` shows is
accepted on `refs/meta/config`). -/
def sampleEmptyTreeCommit : GitCommit := .mk "cfg1" [] "author" none []

/-- A config tree with an extra file. -/
def sampleConfigBadCommit : GitCommit :=
  .mk "cfg2" [("garbage.txt", Blob.raw ""), ("config.json", Blob.config sampleConfig)] "author" none []

/-- Repository with a configured `refs/meta/config`. -/
def sampleState5 : RepoState := [("refs/meta/config", sampleConfigCommit)]

/-- First ledger iteration. -/
def sampleLedger0 : LedgerEntry := { uuid := some "u0", author := "foo", summary := "Good" }

/-- Second ledger iteration. -/
def sampleLedger1 : LedgerEntry := { uuid := some "u1", author := "bar", summary := "Good" }

/-- A review comment of the first iteration. -/
def sampleComment1 : CommentEntry :=
  { author := "foo", done := false, filename := "cases/0.in", iterationUuid := some "u0",
    message := "Good", uuid := some "cu1", parentUuid := none, hasRange := false }

/-- A reply of the second iteration. -/
def sampleComment2 : CommentEntry :=
  { author := "bar", done := true, filename := "cases/0.in", iterationUuid := some "u1",
    message := "Good", uuid := some "cu2", parentUuid := some "cu1", hasRange := false }

/-- A tampered copy of the first comment (changed message), breaking
the append property. -/
def sampleComment1x : CommentEntry :=
  { author := "foo", done := false, filename := "cases/0.in", iterationUuid := some "u0",
    message := "gaslighting", uuid := some "cu1", parentUuid := none, hasRange := false }

/-- The review-target commit, named by its object id `abc123`. -/
def sampleTarget : GitCommit := .mk "abc123" sampleProblemTree "author" none []

/-- Current `refs/meta/review` commit: one iteration, one comment. -/
def sampleReview0 : GitCommit :=
  .mk "r0"
    [("ledger", Blob.ledger [sampleLedger0]), ("abc123", Blob.comments [sampleComment1])]
    "author" (some "u0") []

/-- A valid follow-up review commit: ledger appended, comment file
extended. -/
def sampleReview1 : GitCommit :=
  .mk "r1"
    [("ledger", Blob.ledger [sampleLedger0, sampleLedger1]),
     ("abc123", Blob.comments [sampleComment1, sampleComment2])]
    "author" (some "u1") []

/-- An invalid follow-up review commit: the old comment was edited, so
the file is no longer an append. -/
def sampleReview2 : GitCommit :=
  .mk "r2"
    [("ledger", Blob.ledger [sampleLedger0, sampleLedger1]),
     ("abc123", Blob.comments [sampleComment1x, sampleComment2])]
    "author" (some "u1") []

/-- Repository with an ongoing review of the `abc123` commit. -/
def sampleReviewState : RepoState :=
  [("refs/meta/review", sampleReview0),
   ("refs/changes/initial2", sampleTarget),
   ("refs/heads/master", sampleMaster6)]

/-- Repository with one pending change. -/
def sampleState9 : RepoState := [("refs/changes/initial", sampleCommit)]

/-- Requested settings whose validator becomes custom. -/
def sampleRequestCustom : ProblemSettings :=
  { defaultSettings with validator := { name := "custom", tolerance := 1, limits := none } }

/-- Requested settings with new limits and a non-custom validator. -/
def sampleRequestOk : ProblemSettings :=
  { defaultSettings with
      limits :=
        { timeLimit := 2000
          memoryLimit := 67108864
          overallWallTimeLimit := 30000
          extraWallTime := 500
          outputLimit := 20480 }
      validator := { name := "token", tolerance := 2, limits := some defaultSettings.limits } }

/-- Zip contents without `settings.json` or `testplan`. -/
def sampleZipBase : List (String × Blob) :=
  [("cases/0.in", Blob.raw "1 2"),
   ("cases/0.out", Blob.raw "3"),
   ("statements/es.markdown", Blob.raw "Sumas")]

/-- The same zip carrying the default settings blob explicitly. -/
def sampleZipWithSettings : List (String × Blob) :=
  ("settings.json", Blob.settings defaultSettings) :: sampleZipBase

/-- The same zip with a testplan equivalent to the defaults. -/
def sampleZipWithTestplan : List (String × Blob) :=
  sampleZipBase ++ [("testplan", Blob.raw "0 1")]

/-- The canonical master tree produced by ingesting `sampleZipBase`. -/
def sampleZipCanonical : List (String × Blob) :=
  buildZipTree sampleZipBase defaultSettings none

theorem lookup_filterKey_ne (l : List (String × GitCommit)) (n m : String) (h : m ≠ n) :
    (l.filter (fun e => e.1 != n)).lookup m = l.lookup m := by
  induction l with
  | nil => rfl
  | cons e es ih =>
    rcases e with ⟨k, v⟩
    by_cases hk : k = n
    · have hpred : (((k, v) : String × GitCommit).1 != n) = false := by simp [hk]
      have hm : (m == k) = false := beq_eq_false_iff_ne.mpr (fun hmk => h (hk ▸ hmk))
      simp [List.filter_cons, hpred, List.lookup, hm, ih]
    · have hpred : (((k, v) : String × GitCommit).1 != n) = true := by simp [hk]
      by_cases hmk : m = k
      · subst hmk
        simp [List.filter_cons, hpred, List.lookup]
      · have hm : (m == k) = false := beq_eq_false_iff_ne.mpr hmk
        simp [List.filter_cons, hpred, List.lookup, hm, ih]

theorem lookup_setRef_self (st : RepoState) (n : String) (c : GitCommit) :
    (setRef st n c).lookup n = some c := by
  simp [setRef, List.lookup]

theorem lookup_setRef_ne (st : RepoState) (n m : String) (c : GitCommit) (h : m ≠ n) :
    (setRef st n c).lookup m = st.lookup m := by
  have hm : (m == n) = false := beq_eq_false_iff_ne.mpr h
  simp [setRef, List.lookup, hm, lookup_filterKey_ne st n m h]

theorem lookup_mem {β : Type} (l : List (String × β)) (k : String) (v : β)
    (h : l.lookup k = some v) : (k, v) ∈ l := by
  induction l with
  | nil => cases h
  | cons e es ih =>
    rcases e with ⟨a, b⟩
    by_cases hk : (k == a) = true
    · have hka : k = a := eq_of_beq hk
      subst hka
      simp [List.lookup] at h
      subst h
      exact List.mem_cons_self _ _
    · have hk' : (k == a) = false := by simp at hk; exact beq_eq_false_iff_ne.mpr hk
      rw [List.lookup, hk'] at h
      exact List.mem_cons_of_mem _ (ih h)

theorem processPush_small (a d : Bool) (n : Nat) (cmds : List PushCommand) (st : RepoState)
    (hn : ¬ maxPackfileObjects < n) :
    processPush a d n cmds st
      = ((processCommands a d st cmds).1, "unpack ok" :: (processCommands a d st cmds).2) := by
  simp [processPush, hn]

theorem processCommands_single (a d : Bool) (st : RepoState) (c : PushCommand) :
    processCommands a d st [c]
      = ((handleCommand a d st c).1, [resultLine c.refName (handleCommand a d st c).2]) := by
  simp [processCommands]

theorem ngHead_ne (r e s : String) : ("ng " ++ r ++ " " ++ e) ≠ ("ok " ++ s) := by
  intro hcontra
  have hd := congrArg String.data hcontra
  simp only [String.data_append] at hd
  simp only [List.cons_append, List.nil_append, List.append_assoc] at hd
  injection hd with h3 _
  exact absurd h3 (by decide)

theorem setRef_keeps (st : RepoState) (n r : String) (c : GitCommit)
    (h : (st.lookup r).isSome = true) : ((setRef st n c).lookup r).isSome = true := by
  by_cases hr : r = n
  · subst hr; rw [lookup_setRef_self]; rfl
  · rw [lookup_setRef_ne st n r c hr]; exact h

theorem advSib_keeps (tree : List (String × Blob)) (author : String) (v : Vis)
    (st : RepoState) (r : String) (h : (st.lookup r).isSome = true) :
    ((advSib tree author v st).lookup r).isSome = true := by
  unfold advSib
  cases hlk : st.lookup (sibName v) with
  | some old =>
    by_cases ht : (old.tree == projectTree v tree) = true
    · simp only [hlk, ht, if_true]
      exact h
    · simp only [hlk, Bool.not_eq_true] at ht
      simp only [hlk, ht, if_false, Bool.false_eq_true]
      exact setRef_keeps _ _ _ _ h
  | none =>
    simp only [hlk]
    exact setRef_keeps _ _ _ _ h

theorem advanceMaster_keeps (st : RepoState) (c : GitCommit) (r : String)
    (h : (st.lookup r).isSome = true) :
    ((advanceMaster st c).lookup r).isSome = true := by
  unfold advanceMaster
  exact advSib_keeps _ _ _ _ _ (advSib_keeps _ _ _ _ _ (advSib_keeps _ _ _ _ _
    (setRef_keeps _ _ _ _ h)))

theorem handleCommand_keeps (a d : Bool) (st : RepoState) (c : PushCommand) (r : String)
    (h : (st.lookup r).isSome = true) :
    (((handleCommand a d st c).1).lookup r).isSome = true := by
  unfold handleCommand
  cases c.newCommit with
  | none => exact h
  | some newC =>
    dsimp only
    repeat' split
    all_goals dsimp only
    all_goals
      first
      | exact h
      | exact setRef_keeps _ _ _ _ h
      | exact advanceMaster_keeps _ _ _ h

theorem processCommands_keeps (a d : Bool) (st : RepoState) (cmds : List PushCommand)
    (r : String) (h : (st.lookup r).isSome = true) :
    (((processCommands a d st cmds).1).lookup r).isSome = true := by
  induction cmds generalizing st with
  | nil => exact h
  | cons c cs ih =>
    simp only [processCommands]
    exact ih _ (handleCommand_keeps a d st c r h)

theorem processPush_keeps (a d : Bool) (n : Nat) (cmds : List PushCommand) (st : RepoState)
    (r : String) (h : (st.lookup r).isSome = true) :
    (((processPush a d n cmds st).1).lookup r).isSome = true := by
  unfold processPush
  split
  · exact h
  · exact processCommands_keeps a d st cmds r h

theorem advSib_lookup_ne (tree : List (String × Blob)) (author : String) (v : Vis)
    (st : RepoState) (r : String) (h : r ≠ sibName v) :
    (advSib tree author v st).lookup r = st.lookup r := by
  unfold advSib
  cases hlk : st.lookup (sibName v) with
  | some old =>
    by_cases ht : (old.tree == projectTree v tree) = true
    · simp only [hlk, ht, if_true]
    · have ht' : (old.tree == projectTree v tree) = false := by
        simpa using ht
      simp only [hlk, ht', Bool.false_eq_true, if_false]
      exact lookup_setRef_ne _ _ _ _ h
  | none =>
    simp only [hlk]
    exact lookup_setRef_ne _ _ _ _ h

theorem advSib_lookup_self (tree : List (String × Blob)) (author : String) (v : Vis)
    (st : RepoState) :
    ∃ c', (advSib tree author v st).lookup (sibName v) = some c' ∧
      c'.tree = projectTree v tree ∧
      (∀ c₀, st.lookup (sibName v) = some c₀ → c₀.tree = projectTree v tree → c' = c₀) := by
  unfold advSib
  cases hlk : st.lookup (sibName v) with
  | some old =>
    by_cases ht : (old.tree == projectTree v tree) = true
    · refine ⟨old, ?_, eq_of_beq ht, ?_⟩
      · simp only [hlk, ht, if_true]
      · intro c₀ h₀ _
        cases h₀
        rfl
    · have ht' : (old.tree == projectTree v tree) = false := by
        simpa using ht
      refine ⟨.mk "" (projectTree v tree) author none [old], ?_, rfl, ?_⟩
      · simp only [hlk, ht', Bool.false_eq_true, if_false]
        exact lookup_setRef_self _ _ _
      · intro c₀ h₀ htr
        cases h₀
        exact absurd (beq_iff_eq.mpr htr) (by rw [ht']; exact fun hcontra => by cases hcontra)
  | none =>
    refine ⟨.mk "" (projectTree v tree) author none [], ?_, rfl, ?_⟩
    · simp only [hlk]
      exact lookup_setRef_self _ _ _
    · intro c₀ h₀ _
      cases h₀

theorem sibName_ne_master (v : Vis) : "refs/heads/master" ≠ sibName v := by
  cases v <;> decide

theorem advanceMaster_lookup_master (st : RepoState) (c : GitCommit) :
    (advanceMaster st c).lookup "refs/heads/master"
      = some (.mk c.oid c.tree c.author c.iterationTag
          (match st.lookup "refs/heads/master" with
           | some m => [m]
           | none => [])) := by
  unfold advanceMaster
  rw [advSib_lookup_ne _ _ _ _ _ (sibName_ne_master .priv),
      advSib_lookup_ne _ _ _ _ _ (sibName_ne_master .prot),
      advSib_lookup_ne _ _ _ _ _ (sibName_ne_master .pub),
      lookup_setRef_self]

theorem advanceMaster_lookup_sib (st : RepoState) (c : GitCommit) (v : Vis) :
    ∃ c', (advanceMaster st c).lookup (sibName v) = some c' ∧
      c'.tree = projectTree v c.tree ∧
      (∀ c₀, st.lookup (sibName v) = some c₀ → c₀.tree = projectTree v c.tree → c' = c₀) := by
  unfold advanceMaster
  have hsetRef : ∀ v' : Vis,
      (setRef st "refs/heads/master"
        (.mk c.oid c.tree c.author c.iterationTag
          (match st.lookup "refs/heads/master" with
           | some m => [m]
           | none => []))).lookup (sibName v') = st.lookup (sibName v') := by
    intro v'
    exact lookup_setRef_ne _ _ _ _ (fun hcontra => sibName_ne_master v' hcontra.symm)
  cases v with
  | pub =>
    obtain ⟨c', hl, htr, hk⟩ := advSib_lookup_self c.tree c.author .pub
      (setRef st "refs/heads/master" _)
    refine ⟨c', ?_, htr, ?_⟩
    · rw [advSib_lookup_ne _ _ _ _ _ (by decide : sibName Vis.pub ≠ sibName Vis.priv),
          advSib_lookup_ne _ _ _ _ _ (by decide : sibName Vis.pub ≠ sibName Vis.prot)]
      exact hl
    · intro c₀ h₀ htr₀
      exact hk c₀ (by rw [hsetRef .pub]; exact h₀) htr₀
  | prot =>
    obtain ⟨c', hl, htr, hk⟩ := advSib_lookup_self c.tree c.author .prot
      (advSib c.tree c.author .pub (setRef st "refs/heads/master" _))
    refine ⟨c', ?_, htr, ?_⟩
    · rw [advSib_lookup_ne _ _ _ _ _ (by decide : sibName Vis.prot ≠ sibName Vis.priv)]
      exact hl
    · intro c₀ h₀ htr₀
      refine hk c₀ ?_ htr₀
      rw [advSib_lookup_ne _ _ _ _ _ (by decide : sibName Vis.prot ≠ sibName Vis.pub),
          hsetRef .prot]
      exact h₀
  | priv =>
    obtain ⟨c', hl, htr, hk⟩ := advSib_lookup_self c.tree c.author .priv
      (advSib c.tree c.author .prot (advSib c.tree c.author .pub (setRef st "refs/heads/master" _)))
    refine ⟨c', hl, htr, ?_⟩
    intro c₀ h₀ htr₀
    refine hk c₀ ?_ htr₀
    rw [advSib_lookup_ne _ _ _ _ _ (by decide : sibName Vis.priv ≠ sibName Vis.prot),
        advSib_lookup_ne _ _ _ _ _ (by decide : sibName Vis.priv ≠ sibName Vis.pub),
        hsetRef .priv]
    exact h₀

theorem resultLine_ng (r e : String) :
    resultLine r (RefResult.ng e) = "ng " ++ r ++ (" " ++ e) := by
  simp only [resultLine]
  rw [String.append_assoc]

/-- C3: a push whose packfile would introduce more than 10,000 objects
(the value of `maxPackfileObjects`) is rejected in its entirety: every
requested reference reports `ng <ref> too-many-objects-in-packfile`,
the reference table is unchanged, and the set of reachable commits is
unchanged. -/
theorem packfileLimitRejects (a d : Bool) (n : Nat) (cmds : List PushCommand)
    (st : RepoState) (h : maxPackfileObjects < n) :
    processPush a d n cmds st
      = (st, "unpack ok" :: cmds.map (fun c => "ng " ++ c.refName ++ " too-many-objects-in-packfile")) ∧
    knownCommits (processPush a d n cmds st).1 = knownCommits st := by
  have h1 : processPush a d n cmds st
      = (st, "unpack ok" :: cmds.map (fun c => "ng " ++ c.refName ++ " too-many-objects-in-packfile")) := by
    simp [processPush, h]
  exact ⟨h1, by rw [h1]⟩

/-- Witness for C3 at a gitbomb-sized pack. -/
theorem packfileLimitRejectsWitness :
    processPush false false 16777217 [⟨"refs/changes/initial", some sampleCommit⟩] sampleState1
      = (sampleState1, ["unpack ok", "ng refs/changes/initial too-many-objects-in-packfile"]) ∧
    knownCommits (processPush false false 16777217
        [⟨"refs/changes/initial", some sampleCommit⟩] sampleState1).1
      = knownCommits sampleState1 := by
  have h := packfileLimitRejects false false 16777217
    [⟨"refs/changes/initial", some sampleCommit⟩] sampleState1 (by decide)
  exact ⟨h.1.trans (by decide), h.2⟩

/-- C9: no push ever deletes a reference — a command whose new oid is
the zero oid is rejected with `ng <ref> delete-unallowed` and leaves
the whole reference table untouched, and more generally every
reference that exists before any push still exists after it. -/
theorem deletePolicy (a d : Bool) (n : Nat) (st : RepoState) (r : String) (c : GitCommit)
    (hn : ¬ maxPackfileObjects < n) (h : st.lookup r = some c) :
    processPush a d n [⟨r, none⟩] st = (st, ["unpack ok", "ng " ++ r ++ " delete-unallowed"]) ∧
    (∀ (a' d' : Bool) (n' : Nat) (cmds : List PushCommand) (st₂ : RepoState) (r' : String),
      (st₂.lookup r').isSome = true →
      (((processPush a' d' n' cmds st₂).1).lookup r').isSome = true) := by
  refine ⟨?_, fun a' d' n' cmds st₂ r' h' => processPush_keeps a' d' n' cmds st₂ r' h'⟩
  rw [processPush_small a d n _ st hn, processCommands_single]
  show (st, ["unpack ok", resultLine r (RefResult.ng "delete-unallowed")]) = _
  have hlit : ((" " ++ "delete-unallowed") : String) = " delete-unallowed" := rfl
  rw [resultLine_ng, hlit]

/-- Witness for C9: deleting an existing `refs/changes/initial`. -/
theorem deletePolicyWitness :
    processPush false false 0 [⟨"refs/changes/initial", none⟩] sampleState9
      = (sampleState9, ["unpack ok", "ng refs/changes/initial delete-unallowed"]) ∧
    ((processPush false false 0 [⟨"refs/changes/initial", none⟩] sampleState9).1).lookup
        "refs/changes/initial" = some sampleCommit := by
  have h := deletePolicy false false 0 sampleState9 "refs/changes/initial" sampleCommit
    (by decide) (by decide)
  exact ⟨h.1.trans (by decide), by decide⟩

/-- C8: a client push to a `refs/heads/*` reference other than master
and published is rejected — with `read-only` for the three
engine-maintained sibling branches and with `invalid-ref` for any
other name — at any authorization level, and the response still
begins with `unpack ok`. -/
theorem headsRefPolicy (a d : Bool) (n : Nat) (st : RepoState) (r : String) (c : GitCommit)
    (hn : ¬ maxPackfileObjects < n) :
    (r = "refs/heads/private" ∨ r = "refs/heads/protected" ∨ r = "refs/heads/public" →
      processPush a d n [⟨r, some c⟩] st = (st, ["unpack ok", "ng " ++ r ++ " read-only"])) ∧
    (strStarts "refs/heads/" r = true →
      r ≠ "refs/heads/master" → r ≠ "refs/heads/published" →
      r ≠ "refs/heads/private" → r ≠ "refs/heads/protected" → r ≠ "refs/heads/public" →
      processPush a d n [⟨r, some c⟩] st = (st, ["unpack ok", "ng " ++ r ++ " invalid-ref"])) := by
  constructor
  · intro hr
    rw [processPush_small a d n _ st hn, processCommands_single]
    rcases hr with hr | hr | hr <;> subst hr <;> cases a <;> cases d <;> rfl
  · intro hpre hma hpu hpriv hprot hpub
    rw [processPush_small a d n _ st hn, processCommands_single]
    have h1 : (r == "refs/heads/public") = false := beq_eq_false_iff_ne.mpr hpub
    have h2 : (r == "refs/heads/protected") = false := beq_eq_false_iff_ne.mpr hprot
    have h3 : (r == "refs/heads/private") = false := beq_eq_false_iff_ne.mpr hpriv
    have h4 : (r == "refs/heads/master") = false := beq_eq_false_iff_ne.mpr hma
    have h5 : (r == "refs/heads/published") = false := beq_eq_false_iff_ne.mpr hpu
    have hcalc : handleCommand a d st ⟨r, some c⟩ = (st, RefResult.ng "invalid-ref") := by
      simp only [handleCommand, h1, h2, h3, h4, h5, hpre, Bool.or_false, Bool.false_eq_true,
        if_false, if_true, ite_true, ite_false]
    rw [hcalc]
    show (st, ["unpack ok", resultLine r (RefResult.ng "invalid-ref")]) = _
    have hlit : ((" " ++ "invalid-ref") : String) = " invalid-ref" := rfl
    rw [resultLine_ng, hlit]

/-- Witness for C8: pushes to `refs/heads/private` and to
`refs/heads/arbitrarybranchname` as a non-admin. -/
theorem headsRefPolicyWitness :
    processPush false false 0 [⟨"refs/heads/private", some sampleCommit⟩] sampleState1
      = (sampleState1, ["unpack ok", "ng refs/heads/private read-only"]) ∧
    processPush false false 0 [⟨"refs/heads/arbitrarybranchname", some sampleCommit⟩] sampleState1
      = (sampleState1, ["unpack ok", "ng refs/heads/arbitrarybranchname invalid-ref"]) := by
  constructor
  · exact ((headsRefPolicy false false 0 sampleState1 "refs/heads/private" sampleCommit
      (by decide)).1 (Or.inl rfl)).trans (by decide)
  · exact ((headsRefPolicy false false 0 sampleState1 "refs/heads/arbitrarybranchname"
      sampleCommit (by decide)).2 (by decide) (by decide) (by decide) (by decide) (by decide)
      (by decide)).trans (by decide)

/-- Counterexample to C1 as stated: in a repository with no
`refs/changes/*` references at all, an admin push of a valid problem
commit directly to `refs/heads/master` is accepted when the protocol
enables direct pushes to master (the configuration of
`TestInteractive` and of `omegaup-update-problem`), so acceptance does
not require the new tip to equal the current tip of some
`refs/changes/*` reference. -/
theorem masterDirectPushAccepted :
    changesTips sampleState1 = [] ∧
    (processPush true true 0 [⟨"refs/heads/master", some sampleCommit⟩] sampleState1).2
      = ["unpack ok", "ok refs/heads/master"] := by
  constructor
  · decide
  · decide

/-- C1 (amended): a non-admin push to `refs/heads/master` is rejected
with `ng refs/heads/master forbidden` and changes nothing; an admin
push is accepted only when the new tip equals the current tip of some
`refs/changes/*` reference, or when the protocol was built with direct
pushes to master enabled and the pushed tree itself passes full
problem validation. -/
theorem masterPolicy (st : RepoState) (c : GitCommit) (d : Bool) (n : Nat)
    (hn : ¬ maxPackfileObjects < n) :
    processPush false d n [⟨"refs/heads/master", some c⟩] st
      = (st, ["unpack ok", "ng refs/heads/master forbidden"]) ∧
    ((processPush true d n [⟨"refs/heads/master", some c⟩] st).2
        = ["unpack ok", "ok refs/heads/master"] →
      c ∈ changesTips st ∨ (d = true ∧ problemValid c.tree = true)) := by
  constructor
  · rw [processPush_small false d n _ st hn, processCommands_single]
    rfl
  · intro hacc
    rw [processPush_small true d n _ st hn, processCommands_single] at hacc
    have hcalc : handleCommand true d st ⟨"refs/heads/master", some c⟩
        = if ((changesTips st).any (fun x => x == c) || (d && problemValid c.tree)) then
            (advanceMaster st c, RefResult.ok)
          else (st, RefResult.ng "problem-bad-layout: invalid problem tree") := rfl
    by_cases hcond : ((changesTips st).any (fun x => x == c)
        || (d && problemValid c.tree)) = true
    · cases (Bool.or_eq_true _ _).mp hcond with
      | inl hany =>
        left
        obtain ⟨x, hx, hxc⟩ := List.any_eq_true.mp hany
        exact (eq_of_beq hxc) ▸ hx
      | inr hval => exact Or.inr ((Bool.and_eq_true _ _).mp hval)
    · exfalso
      rw [hcalc, if_neg hcond] at hacc
      simp only [List.cons.injEq] at hacc
      exact ngHead_ne "refs/heads/master" "problem-bad-layout: invalid problem tree"
        "refs/heads/master" (by exact hacc.2.1)

/-- Witness for C1 (amended) at a concrete push. -/
theorem masterPolicyWitness :
    processPush false true 0 [⟨"refs/heads/master", some sampleCommit⟩] sampleState1
      = (sampleState1, ["unpack ok", "ng refs/heads/master forbidden"]) ∧
    (sampleCommit ∈ changesTips sampleState1
      ∨ (true = true ∧ problemValid sampleCommit.tree = true)) := by
  have h := masterPolicy sampleState1 sampleCommit true 0 (by decide)
  exact ⟨h.1, h.2 (by decide)⟩

/-- C2: an accepted update of `refs/heads/published` lands on the
first-parent chain of the current `refs/heads/master` (an ancestor of
master), and an admin push of `refs/heads/published` to a commit not
on that chain is rejected with
`ng refs/heads/published published-must-point-to-commit-in-master`. -/
theorem publishedPolicy (st : RepoState) (c : GitCommit) (d : Bool) (n : Nat)
    (hn : ¬ maxPackfileObjects < n) :
    ((processPush true d n [⟨"refs/heads/published", some c⟩] st).2
        = ["unpack ok", "ok refs/heads/published"] →
      ∃ m, st.lookup "refs/heads/master" = some m ∧ c ∈ firstParentChain m) ∧
    (∀ m, st.lookup "refs/heads/master" = some m → c ∉ firstParentChain m →
      processPush true d n [⟨"refs/heads/published", some c⟩] st
        = (st, ["unpack ok", "ng refs/heads/published published-must-point-to-commit-in-master"])) := by
  have hcalc : handleCommand true d st ⟨"refs/heads/published", some c⟩
      = match st.lookup "refs/heads/master" with
        | some m =>
          if (firstParentChain m).any (fun x => x == c) then
            (setRef st "refs/heads/published" c, RefResult.ok)
          else (st, RefResult.ng "published-must-point-to-commit-in-master")
        | none => (st, RefResult.ng "published-must-point-to-commit-in-master") := rfl
  constructor
  · intro hacc
    rw [processPush_small true d n _ st hn, processCommands_single] at hacc
    cases hm : st.lookup "refs/heads/master" with
    | none =>
      exfalso
      have hcalc2 : handleCommand true d st ⟨"refs/heads/published", some c⟩
          = (st, RefResult.ng "published-must-point-to-commit-in-master") := by
        rw [hcalc, hm]
      rw [hcalc2] at hacc
      simp only [List.cons.injEq] at hacc
      exact ngHead_ne "refs/heads/published" "published-must-point-to-commit-in-master"
        "refs/heads/published" (by exact hacc.2.1)
    | some m =>
      by_cases hch : ((firstParentChain m).any (fun x => x == c)) = true
      · refine ⟨m, rfl, ?_⟩
        obtain ⟨x, hx, hxc⟩ := List.any_eq_true.mp hch
        exact (eq_of_beq hxc) ▸ hx
      · exfalso
        have hcalc2 : handleCommand true d st ⟨"refs/heads/published", some c⟩
            = (st, RefResult.ng "published-must-point-to-commit-in-master") := by
          rw [hcalc, hm]
          show (if ((firstParentChain m).any fun x => x == c) = true
              then (setRef st "refs/heads/published" c, RefResult.ok)
              else (st, RefResult.ng "published-must-point-to-commit-in-master"))
            = (st, RefResult.ng "published-must-point-to-commit-in-master")
          rw [if_neg hch]
        rw [hcalc2] at hacc
        simp only [List.cons.injEq] at hacc
        exact ngHead_ne "refs/heads/published" "published-must-point-to-commit-in-master"
          "refs/heads/published" (by exact hacc.2.1)
  · intro m hm hmem
    rw [processPush_small true d n _ st hn, processCommands_single]
    have hch : ((firstParentChain m).any (fun x => x == c)) = false := by
      rw [Bool.eq_false_iff]
      intro hc
      obtain ⟨x, hx, hxc⟩ := List.any_eq_true.mp hc
      exact hmem ((eq_of_beq hxc) ▸ hx)
    have hnot : ¬(((firstParentChain m).any (fun x => x == c)) = true) := by
      rw [hch]
      exact Bool.false_ne_true
    have hcalc2 : handleCommand true d st ⟨"refs/heads/published", some c⟩
        = (st, RefResult.ng "published-must-point-to-commit-in-master") := by
      rw [hcalc, hm]
      show (if ((firstParentChain m).any fun x => x == c) = true
          then (setRef st "refs/heads/published" c, RefResult.ok)
          else (st, RefResult.ng "published-must-point-to-commit-in-master"))
        = (st, RefResult.ng "published-must-point-to-commit-in-master")
      rw [if_neg hnot]
    rw [hcalc2]
    rfl

/-- Witness for C2: publishing the parent of the current master is
accepted; publishing an unrelated commit is rejected. -/
theorem publishedPolicyWitness :
    (∃ m, sampleState2.lookup "refs/heads/master" = some m ∧
      sampleCommit ∈ firstParentChain m) ∧
    processPush true false 0 [⟨"refs/heads/published", some sampleCommit2⟩] sampleState2
      = (sampleState2,
         ["unpack ok", "ng refs/heads/published published-must-point-to-commit-in-master"]) := by
  constructor
  · exact (publishedPolicy sampleState2 sampleCommit false 0 (by decide)).1 (by decide)
  · exact (publishedPolicy sampleState2 sampleCommit2 false 0 (by decide)).2
      sampleMasterChain (by decide) (by decide)

/-- Counterexample to C5 as stated: an admin push of a commit with an
empty tree (no `config.json` entry at all) to `refs/meta/config` is
accepted (the `Empty tree` step of `TestConfig`), so a tree without a
`config.json` entry is not rejected. -/
theorem configEmptyTreeAccepted :
    sampleEmptyTreeCommit.tree = [] ∧
    (processPush true false 0 [⟨"refs/meta/config", some sampleEmptyTreeCommit⟩] sampleState5).2
      = ["unpack ok", "ok refs/meta/config"] := by
  constructor
  · rfl
  · decide

/-- C5 (amended): an admin push to `refs/meta/config` whose tree has
any entry not named `config.json` (an extra file or a wrong filename)
is rejected with `ng refs/meta/config config-bad-layout: refs/meta/config
can only contain a single config.json file`; conversely every accepted
tree consists solely of `config.json` entries (possibly none). -/
theorem configLayoutPolicy (st : RepoState) (c : GitCommit) (d : Bool) (n : Nat)
    (hn : ¬ maxPackfileObjects < n) :
    (c.tree.any (fun e => e.1 != "config.json") = true →
      processPush true d n [⟨"refs/meta/config", some c⟩] st
        = (st, ["unpack ok",
            "ng refs/meta/config config-bad-layout: refs/meta/config can only contain a single config.json file"])) ∧
    ((processPush true d n [⟨"refs/meta/config", some c⟩] st).2
        = ["unpack ok", "ok refs/meta/config"] →
      ∀ e ∈ c.tree, e.1 = "config.json") := by
  have hcalc : handleCommand true d st ⟨"refs/meta/config", some c⟩
      = match configError c.tree with
        | none => (setRef st "refs/meta/config" c, RefResult.ok)
        | some e => (st, RefResult.ng e) := rfl
  constructor
  · intro hany
    have hcfg : configError c.tree
        = some "config-bad-layout: refs/meta/config can only contain a single config.json file" := by
      unfold configError
      rw [if_pos hany]
    have hcalc2 : handleCommand true d st ⟨"refs/meta/config", some c⟩
        = (st, RefResult.ng
            "config-bad-layout: refs/meta/config can only contain a single config.json file") := by
      rw [hcalc, hcfg]
    rw [processPush_small true d n _ st hn, processCommands_single, hcalc2]
    rfl
  · intro hacc e he
    by_contra hne
    have hany : c.tree.any (fun x => x.1 != "config.json") = true :=
      List.any_eq_true.mpr ⟨e, he, by simpa using hne⟩
    have hcfg : configError c.tree
        = some "config-bad-layout: refs/meta/config can only contain a single config.json file" := by
      unfold configError
      rw [if_pos hany]
    have hcalc2 : handleCommand true d st ⟨"refs/meta/config", some c⟩
        = (st, RefResult.ng
            "config-bad-layout: refs/meta/config can only contain a single config.json file") := by
      rw [hcalc, hcfg]
    rw [processPush_small true d n _ st hn, processCommands_single, hcalc2] at hacc
    simp only [List.cons.injEq] at hacc
    exact absurd hacc.2.1 (by decide)

/-- Witness for C5 (amended): the `garbage.txt` push of `TestConfig`. -/
theorem configLayoutPolicyWitness :
    processPush true false 0 [⟨"refs/meta/config", some sampleConfigBadCommit⟩] sampleState5
      = (sampleState5, ["unpack ok",
          "ng refs/meta/config config-bad-layout: refs/meta/config can only contain a single config.json file"]) ∧
    (∀ e ∈ sampleConfigCommit.tree, e.1 = "config.json") := by
  constructor
  · exact (configLayoutPolicy sampleState5 sampleConfigBadCommit false 0 (by decide)).1
      (by decide)
  · exact (configLayoutPolicy sampleState5 sampleConfigCommit false 0 (by decide)).2 (by decide)

/-- Counterexample to C6 as stated: an accepted admin update of
`refs/heads/master` that changes only the statement leaves
`refs/heads/protected` and `refs/heads/private` pointing at their
previous commits while master moves, so the three siblings do not all
move in lockstep with master. -/
theorem siblingNotAdvanced :
    (processPush true true 0 [⟨"refs/heads/master", some sampleCommit2⟩] sampleState6).2
      = ["unpack ok", "ok refs/heads/master"] ∧
    ((processPush true true 0 [⟨"refs/heads/master", some sampleCommit2⟩] sampleState6).1).lookup
        "refs/heads/protected" = sampleState6.lookup "refs/heads/protected" ∧
    ((processPush true true 0 [⟨"refs/heads/master", some sampleCommit2⟩] sampleState6).1).lookup
        "refs/heads/private" = sampleState6.lookup "refs/heads/private" ∧
    ((processPush true true 0 [⟨"refs/heads/master", some sampleCommit2⟩] sampleState6).1).lookup
        "refs/heads/master" ≠ sampleState6.lookup "refs/heads/master" := by
  refine ⟨by decide, by decide, by decide, by decide⟩

/-- C6 (amended): after every accepted update of `refs/heads/master`,
master carries the pushed tree and each sibling reference points at a
commit whose tree is the visibility-filtered projection of the new
master tree — but a sibling whose projection is unchanged keeps its
previous commit instead of being advanced. -/
theorem siblingProjectionPolicy (st : RepoState) (c : GitCommit) (d : Bool) (n : Nat)
    (hn : ¬ maxPackfileObjects < n)
    (hacc : (processPush true d n [⟨"refs/heads/master", some c⟩] st).2
        = ["unpack ok", "ok refs/heads/master"]) :
    ∃ m, ((processPush true d n [⟨"refs/heads/master", some c⟩] st).1).lookup "refs/heads/master"
        = some m ∧ m.tree = c.tree ∧
      ∀ v : Vis, ∃ c',
        ((processPush true d n [⟨"refs/heads/master", some c⟩] st).1).lookup (sibName v)
          = some c' ∧ c'.tree = projectTree v c.tree ∧
        (∀ c₀, st.lookup (sibName v) = some c₀ → c₀.tree = projectTree v c.tree → c' = c₀) := by
  have hcalc : handleCommand true d st ⟨"refs/heads/master", some c⟩
      = if ((changesTips st).any (fun x => x == c) || (d && problemValid c.tree)) then
          (advanceMaster st c, RefResult.ok)
        else (st, RefResult.ng "problem-bad-layout: invalid problem tree") := rfl
  rw [processPush_small true d n _ st hn, processCommands_single] at hacc
  by_cases hcond : ((changesTips st).any (fun x => x == c) || (d && problemValid c.tree)) = true
  · have hstate : (processPush true d n [⟨"refs/heads/master", some c⟩] st).1
        = advanceMaster st c := by
      rw [processPush_small true d n _ st hn, processCommands_single, hcalc, if_pos hcond]
    rw [hstate]
    refine ⟨_, advanceMaster_lookup_master st c, rfl, ?_⟩
    intro v
    exact advanceMaster_lookup_sib st c v
  · exfalso
    rw [hcalc, if_neg hcond] at hacc
    simp only [List.cons.injEq] at hacc
    exact absurd hacc.2.1 (by decide)

/-- Witness for C6 (amended) at the statements-only update. -/
theorem siblingProjectionPolicyWitness :
    ∃ m, ((processPush true true 0
        [⟨"refs/heads/master", some sampleCommit2⟩] sampleState6).1).lookup
        "refs/heads/master" = some m ∧ m.tree = sampleCommit2.tree ∧
      ∀ v : Vis, ∃ c',
        ((processPush true true 0
          [⟨"refs/heads/master", some sampleCommit2⟩] sampleState6).1).lookup
          (sibName v) = some c' ∧ c'.tree = projectTree v sampleCommit2.tree ∧
        (∀ c₀, sampleState6.lookup (sibName v) = some c₀ →
          c₀.tree = projectTree v sampleCommit2.tree → c' = c₀) :=
  siblingProjectionPolicy sampleState6 sampleCommit2 true 0 (by decide) (by decide)

theorem checkPrevFile_ok (tag : String) (newTree : List (String × Blob)) (f : String)
    (pe : List CommentEntry) (h : checkPrevFile tag newTree f pe = Except.ok ()) :
    ∃ ne, newTree.lookup f = some (Blob.comments ne) ∧ listLeads pe ne = true ∧
      (ne.drop pe.length).any (fun e => e.iterationUuid == some tag) = true := by
  unfold checkPrevFile at h
  cases hlk : newTree.lookup f with
  | none => simp only [hlk] at h; cases h
  | some bb =>
    cases bb with
    | comments ne =>
      simp only [hlk] at h
      by_cases h1 : listLeads pe ne = true
      · by_cases h2 : (ne.drop pe.length).any (fun e => e.iterationUuid == some tag) = true
        · exact ⟨ne, rfl, h1, h2⟩
        · exfalso
          simp [h1, h2] at h
      · exfalso
        simp [h1] at h
    | raw s => simp only [hlk] at h; cases h
    | settings s => simp only [hlk] at h; cases h
    | ledger l => simp only [hlk] at h; cases h
    | config c => simp only [hlk] at h; cases h

theorem checkPrevFiles_ok_mem (tag : String) (newTree : List (String × Blob)) :
    ∀ l : List (String × Blob), checkPrevFiles tag newTree l = Except.ok () →
    ∀ f pe, (f, Blob.comments pe) ∈ l → checkPrevFile tag newTree f pe = Except.ok () := by
  intro l
  induction l with
  | nil => intro _ f pe hm; cases hm
  | cons x rest ih =>
    intro h f pe hm
    rcases x with ⟨g, b⟩
    cases hm with
    | head =>
      cases hc : checkPrevFile tag newTree f pe with
      | ok u => cases u; rfl
      | error e =>
        rw [checkPrevFiles, hc] at h
        cases h
    | tail _ hm' =>
      cases b with
      | comments pe' =>
        cases hc : checkPrevFile tag newTree g pe' with
        | error e =>
          rw [checkPrevFiles, hc] at h
          cases h
        | ok u =>
          cases u
          rw [checkPrevFiles, hc] at h
          exact ih h f pe hm'
      | raw s => exact ih (by rw [checkPrevFiles] at h; exact h) f pe hm'
      | settings s => exact ih (by rw [checkPrevFiles] at h; exact h) f pe hm'
      | ledger l2 => exact ih (by rw [checkPrevFiles] at h; exact h) f pe hm'
      | config c2 => exact ih (by rw [checkPrevFiles] at h; exact h) f pe hm'

/-- C4: for every accepted commit on `refs/meta/review`, each
non-ledger per-commit comment file extends that file's content in the
immediately preceding review commit by a strict prefix-preserving
append; and a push whose new file content does not keep the prior
content as a leading segment is rejected with
`ng refs/meta/review review-bad-layout: unexpected non-append to <oid>`. -/
theorem reviewAppendPolicy (st : RepoState) (newC : GitCommit) (d : Bool) (n : Nat)
    (f : String) (pe : List CommentEntry)
    (hn : ¬ maxPackfileObjects < n) (hf : f ≠ "ledger") :
    ((processPush false d n [⟨"refs/meta/review", some newC⟩] st).2
        = ["unpack ok", "ok refs/meta/review"] →
      (prevReviewTree st).lookup f = some (Blob.comments pe) →
      ∃ ne, newC.tree.lookup f = some (Blob.comments ne) ∧
        listLeads pe ne = true ∧ pe ≠ ne) ∧
    (∀ tag newLed ne, reviewHeader st newC = Except.ok (tag, newLed) →
      (prevReviewTree st).filter (fun e => e.1 != "ledger") = [(f, Blob.comments pe)] →
      newC.tree.lookup f = some (Blob.comments ne) →
      listLeads pe ne = false →
      processPush false d n [⟨"refs/meta/review", some newC⟩] st
        = (st, ["unpack ok",
            "ng refs/meta/review review-bad-layout: unexpected non-append to " ++ f])) := by
  have hcalc : handleCommand false d st ⟨"refs/meta/review", some newC⟩
      = match validateReview st newC with
        | Except.ok () => (setRef st "refs/meta/review" newC, RefResult.ok)
        | Except.error e => (st, RefResult.ng e) := rfl
  constructor
  · intro hacc hprev
    rw [processPush_small false d n _ st hn, processCommands_single] at hacc
    cases hv : validateReview st newC with
    | error e =>
      exfalso
      have hcalc2 : handleCommand false d st ⟨"refs/meta/review", some newC⟩
          = (st, RefResult.ng e) := by rw [hcalc, hv]
      rw [hcalc2] at hacc
      simp only [List.cons.injEq] at hacc
      exact ngHead_ne "refs/meta/review" e "refs/meta/review" (by exact hacc.2.1)
    | ok u =>
      cases u
      unfold validateReview at hv
      cases hh : reviewHeader st newC with
      | error e => simp only [hh] at hv; cases hv
      | ok pr =>
        rcases pr with ⟨tag, newLed⟩
        simp only [hh] at hv
        cases hcp : checkPrevFiles tag newC.tree
            ((prevReviewTree st).filter (fun e => e.1 != "ledger")) with
        | error e => simp only [hcp] at hv; cases hv
        | ok u2 =>
          cases u2
          have hmem : (f, Blob.comments pe)
              ∈ (prevReviewTree st).filter (fun e => e.1 != "ledger") :=
            List.mem_filter.mpr ⟨lookup_mem _ _ _ hprev, by simpa using hf⟩
          have hok := checkPrevFiles_ok_mem tag newC.tree _ hcp f pe hmem
          obtain ⟨ne, hlk, hlead, hany⟩ := checkPrevFile_ok tag newC.tree f pe hok
          refine ⟨ne, hlk, hlead, ?_⟩
          intro heq
          rw [heq, List.drop_length] at hany
          simp at hany
  · intro tag newLed ne hdr hfilter hlkf hnl
    have hpf : checkPrevFile tag newC.tree f pe
        = Except.error ("review-bad-layout: unexpected non-append to " ++ f) := by
      unfold checkPrevFile
      simp [hlkf, hnl]
    have hcpf : checkPrevFiles tag newC.tree
        ((prevReviewTree st).filter (fun e => e.1 != "ledger"))
        = Except.error ("review-bad-layout: unexpected non-append to " ++ f) := by
      rw [hfilter]
      simp only [checkPrevFiles, hpf]
    have hv : validateReview st newC
        = Except.error ("review-bad-layout: unexpected non-append to " ++ f) := by
      unfold validateReview
      simp only [hdr, hcpf]
    have hcalc2 : handleCommand false d st ⟨"refs/meta/review", some newC⟩
        = (st, RefResult.ng ("review-bad-layout: unexpected non-append to " ++ f)) := by
      rw [hcalc, hv]
    rw [processPush_small false d n _ st hn, processCommands_single, hcalc2]
    rfl

/-- Witness for C4: the accepted append `sampleReview1` and the
rejected tampered commit `sampleReview2` on the same review state. -/
theorem reviewAppendPolicyWitness :
    (∃ ne, sampleReview1.tree.lookup "abc123" = some (Blob.comments ne) ∧
      listLeads [sampleComment1] ne = true ∧ [sampleComment1] ≠ ne) ∧
    processPush false false 0 [⟨"refs/meta/review", some sampleReview2⟩] sampleReviewState
      = (sampleReviewState, ["unpack ok",
          "ng refs/meta/review review-bad-layout: unexpected non-append to " ++ "abc123"]) := by
  constructor
  · exact (reviewAppendPolicy sampleReviewState sampleReview1 false 0 "abc123" [sampleComment1]
      (by decide) (by decide)).1 (by decide) (by decide)
  · exact (reviewAppendPolicy sampleReviewState sampleReview2 false 0 "abc123" [sampleComment1]
      (by decide) (by decide)).2 "u1" [sampleLedger0, sampleLedger1]
      [sampleComment1x, sampleComment2] (by decide) (by decide) (by decide) (by decide)

theorem lookup_mergeTrees_head (s : String) (b : Blob) (under : List (String × Blob)) :
    (mergeTrees [(s, b)] under).lookup s = some b := by
  unfold mergeTrees
  simp [List.lookup]

theorem lookup_mergeTrees_single (s : String) (b : Blob) (under : List (String × Blob))
    (g : String) (h : g ≠ s) :
    (mergeTrees [(s, b)] under).lookup g = under.lookup g := by
  have hg : (g == s) = false := beq_eq_false_iff_ne.mpr h
  unfold mergeTrees
  show List.lookup g ((s, b) :: under.filter _) = _
  simp only [List.lookup, hg]
  induction under with
  | nil => rfl
  | cons e rest ih =>
    rcases e with ⟨a, v⟩
    by_cases ha : (a == s) = true
    · have hga : (g == a) = false := by
        have haeq : a = s := eq_of_beq ha
        exact beq_eq_false_iff_ne.mpr (fun hcontra => h (hcontra.trans haeq))
      simp only [List.filter_cons, List.lookup, ha, Option.isNone, Bool.false_eq_true,
        if_false, hga]
      exact ih
    · have ha' : (a == s) = false := by simpa using ha
      simp only [List.filter_cons, List.lookup, ha', Option.isNone, if_true]
      by_cases hga : (g == a) = true
      · simp only [hga]
      · have hga' : (g == a) = false := by simpa using hga
        simp only [hga']
        exact ih

/-- C10: on an existing repository, `commitSettings` either fails with
a categorized error or commits a `settings.json` equal to the previous
one in every field except the limits and the validator's name,
tolerance and limits (leaving every other tree entry untouched); and
whenever the requested validator name changes custom-ness in either
direction it fails with a `problem-bad-layout` error and leaves the
repository unchanged. -/
theorem commitSettingsPolicy (parentTree : List (String × Blob))
    (requested old : ProblemSettings)
    (hold : parentTree.lookup "settings.json" = some (Blob.settings old)) :
    ((old.validator.name == "custom") ≠ (requested.validator.name == "custom") →
      (∃ msg, commitSettings parentTree requested
          = Except.error (UpdateError.problemBadLayout msg)) ∧
      commitSettingsRepo parentTree requested = parentTree) ∧
    (∀ t, commitSettings parentTree requested = Except.ok t →
      (∃ committed, t.lookup "settings.json" = some (Blob.settings committed) ∧
        committed.title = old.title ∧ committed.slow = old.slow ∧
        committed.cases = old.cases ∧ committed.interactive = old.interactive ∧
        committed.limits = requested.limits ∧
        committed.validator.name = requested.validator.name ∧
        committed.validator.tolerance = requested.validator.tolerance ∧
        committed.validator.limits = requested.validator.limits) ∧
      (∀ g, g ≠ "settings.json" → t.lookup g = parentTree.lookup g)) := by
  constructor
  · intro hcust
    have hne : old.validator.name ≠ requested.validator.name := by
      intro heq
      exact hcust (by rw [heq])
    have hbne : (old.validator.name != requested.validator.name) = true := by
      simpa using hne
    by_cases hoc : (old.validator.name == "custom") = true
    · have hcond : (old.validator.name != requested.validator.name
          && old.validator.name == "custom") = true := by
        rw [hbne, hoc]
        rfl
      have hres : commitSettings parentTree requested
          = Except.error (UpdateError.problemBadLayout "problem with unused validator") := by
        unfold commitSettings
        simp only [hold, hcond, if_true]
      refine ⟨⟨"problem with unused validator", hres⟩, ?_⟩
      unfold commitSettingsRepo
      rw [hres]
    · have hoc' : (old.validator.name == "custom") = false := by simpa using hoc
      have hrc : (requested.validator.name == "custom") = true := by
        cases hrcv : (requested.validator.name == "custom") with
        | true => rfl
        | false => exact absurd (hoc'.trans hrcv.symm) hcust
      have hcond1 : (old.validator.name != requested.validator.name
          && old.validator.name == "custom") = false := by
        rw [hoc']
        exact Bool.and_false _
      have hcond2 : (old.validator.name != requested.validator.name
          && requested.validator.name == "custom") = true := by
        rw [hbne, hrc]
        rfl
      have hres : commitSettings parentTree requested
          = Except.error (UpdateError.problemBadLayout
              "problem with custom validator missing a validator") := by
        unfold commitSettings
        simp only [hold, hcond1, hcond2, Bool.false_eq_true, if_false, if_true]
      refine ⟨⟨"problem with custom validator missing a validator", hres⟩, ?_⟩
      unfold commitSettingsRepo
      rw [hres]
  · intro t ht
    unfold commitSettings at ht
    simp only [hold] at ht
    by_cases hcond1 : (old.validator.name != requested.validator.name
        && old.validator.name == "custom") = true
    · rw [if_pos hcond1] at ht
      cases ht
    · have hcond1' : (old.validator.name != requested.validator.name
          && old.validator.name == "custom") = false := by simpa using hcond1
      rw [hcond1'] at ht
      simp only [Bool.false_eq_true, if_false] at ht
      by_cases hcond2 : (old.validator.name != requested.validator.name
          && requested.validator.name == "custom") = true
      · rw [if_pos hcond2] at ht
        cases ht
      · have hcond2' : (old.validator.name != requested.validator.name
            && requested.validator.name == "custom") = false := by simpa using hcond2
        rw [hcond2'] at ht
        simp only [Bool.false_eq_true, if_false, Except.ok.injEq] at ht
        subst ht
        constructor
        · refine ⟨applySettings old requested, lookup_mergeTrees_head _ _ _,
            rfl, rfl, rfl, rfl, rfl, rfl, rfl, rfl⟩
        · intro g hg
          exact lookup_mergeTrees_single _ _ _ _ hg

/-- Witness for C10: a custom-ness change fails and a plain limits
update commits the rewritten settings. -/
theorem commitSettingsPolicyWitness :
    ((∃ msg, commitSettings sampleProblemTree sampleRequestCustom
        = Except.error (UpdateError.problemBadLayout msg)) ∧
      commitSettingsRepo sampleProblemTree sampleRequestCustom = sampleProblemTree) ∧
    (∃ committed,
      (commitSettingsRepo sampleProblemTree sampleRequestOk).lookup "settings.json"
        = some (Blob.settings committed) ∧
      committed.limits = sampleRequestOk.limits ∧
      committed.title = defaultSettings.title) := by
  constructor
  · exact (commitSettingsPolicy sampleProblemTree sampleRequestCustom defaultSettings
      (by decide)).1 (by decide)
  · have h := (commitSettingsPolicy sampleProblemTree sampleRequestOk defaultSettings
      (by decide)).2 (commitSettingsRepo sampleProblemTree sampleRequestOk) (by decide)
    obtain ⟨⟨committed, hlk, htitle, _, _, _, hlim, _, _, _⟩, _⟩ := h
    exact ⟨committed, hlk, hlim, htitle⟩

theorem lookup_filter_none {β : Type} (l : List (String × β)) (k : String)
    (p : String × β → Bool) (hp : ∀ e, p e = true → (k == e.1) = false) :
    (l.filter p).lookup k = none := by
  induction l with
  | nil => rfl
  | cons e rest ih =>
    by_cases hpe : p e = true
    · rcases e with ⟨a, v⟩
      simp only [List.filter_cons, hpe, if_true, List.lookup, hp _ hpe]
      exact ih
    · have hpe' : p e = false := by simpa using hpe
      simp only [List.filter_cons, hpe', Bool.false_eq_true, if_false]
      exact ih

theorem filter_idem {β : Type} (p : β → Bool) (l : List β) :
    (l.filter p).filter p = l.filter p := by
  induction l with
  | nil => rfl
  | cons x rest ih =>
    by_cases hx : p x = true
    · simp only [List.filter_cons, hx, if_true]
      exact congrArg (x :: ·) ih
    · have hx' : p x = false := by simpa using hx
      simp only [List.filter_cons, hx', Bool.false_eq_true, if_false]
      exact ih

theorem caseNames_zipTreeCore (files : List (String × Blob)) :
    caseNames (zipTreeCore files) = caseNames files := by
  induction files with
  | nil => rfl
  | cons e rest ih =>
    rcases e with ⟨a, v⟩
    by_cases hpe : ((a != "settings.json") && (a != "testplan")) = true
    · simp only [zipTreeCore, List.filter_cons, hpe, if_true]
      show caseNames ((a, v) :: (zipTreeCore rest)) = caseNames ((a, v) :: rest)
      simp only [caseNames, List.filterMap_cons]
      have ih' : List.filterMap
          (fun e => if (strStarts "cases/" e.1 && strEnds e.1 ".in") = true
            then some (strDropRight (strDrop e.1 6) 3) else none) (zipTreeCore rest)
          = List.filterMap
          (fun e => if (strStarts "cases/" e.1 && strEnds e.1 ".in") = true
            then some (strDropRight (strDrop e.1 6) 3) else none) rest := ih
      rw [ih']
    · have h1 : a = "settings.json" ∨ a = "testplan" := by
        by_cases ha : a = "settings.json"
        · exact Or.inl ha
        · refine Or.inr ?_
          by_cases hb : a = "testplan"
          · exact hb
          · exact absurd (by simp [ha, hb]) hpe
      have hnc : (strStarts "cases/" a && strEnds a ".in") = false := by
        cases h1 with
        | inl h2 => rw [h2]; decide
        | inr h2 => rw [h2]; decide
      have hpe' : ((a != "settings.json") && (a != "testplan")) = false := by simpa using hpe
      simp only [zipTreeCore, List.filter_cons, hpe', Bool.false_eq_true, if_false]
      rw [show List.filter (fun e => e.1 != "settings.json" && e.1 != "testplan") rest
          = zipTreeCore rest from rfl, ih]
      show caseNames rest = caseNames ((a, v) :: rest)
      simp only [caseNames, List.filterMap_cons, hnc, Bool.false_eq_true, if_false]

theorem lookup_map_pair (w : String → Nat) (l : List String) (n : String) (hn : n ∈ l) :
    (l.map (fun m => (m, w m))).lookup n = some (w n) := by
  induction l with
  | nil => cases hn
  | cons m ms ih =>
    by_cases hm : (n == m) = true
    · have : n = m := eq_of_beq hm
      subst this
      simp [List.lookup]
    · have hm' : (n == m) = false := by simpa using hm
      have hn' : n ∈ ms := by
        cases hn with
        | head => exact absurd (beq_self_eq_true n) (by rw [hm']; exact Bool.false_ne_true)
        | tail _ h2 => exact h2
      simp only [List.map_cons, List.lookup, hm']
      exact ih hn'

theorem map_congr_mem {α β : Type} (l : List α) (f g : α → β)
    (h : ∀ a ∈ l, f a = g a) : l.map f = l.map g := by
  induction l with
  | nil => rfl
  | cons x rest ih =>
    simp only [List.map_cons]
    rw [h x (List.mem_cons_self x rest), ih (fun a ha => h a (List.mem_cons_of_mem x ha))]

theorem zipTreeCore_buildZipTree (files : List (String × Blob)) (s : ProblemSettings)
    (tp : Option (List (String × Nat))) :
    zipTreeCore (buildZipTree files s tp) = zipTreeCore files := by
  show List.filter (fun e => e.1 != "settings.json" && e.1 != "testplan")
      (("settings.json", Blob.settings { s with cases := derivedCases files tp s.cases })
        :: List.filter (fun e => e.1 != "settings.json" && e.1 != "testplan") files)
    = List.filter (fun e => e.1 != "settings.json" && e.1 != "testplan") files
  rw [List.filter_cons, if_neg (show ¬((("settings.json" : String) != "settings.json"
      && ("settings.json" : String) != "testplan") = true) by decide)]
  exact filter_idem _ files

theorem caseNames_buildZipTree (files : List (String × Blob)) (s : ProblemSettings)
    (tp : Option (List (String × Nat))) :
    caseNames (buildZipTree files s tp) = caseNames files := by
  have hh : (if (strStarts "cases/" "settings.json" && strEnds "settings.json" ".in") = true
      then some (strDropRight (strDrop "settings.json" 6) 3) else none) = none := by decide
  show caseNames (("settings.json", Blob.settings
      { s with cases := derivedCases files tp s.cases }) :: zipTreeCore files)
    = caseNames files
  simp only [caseNames, List.filterMap_cons, hh]
  exact caseNames_zipTreeCore files

theorem derivedCases_buildZipTree (files : List (String × Blob)) (s : ProblemSettings)
    (tp : Option (List (String × Nat))) :
    derivedCases (buildZipTree files s tp) none (derivedCases files tp s.cases)
      = derivedCases files tp s.cases := by
  unfold derivedCases
  rw [caseNames_buildZipTree]
  apply map_congr_mem
  intro n hn
  show (n, (((caseNames files).dedup.map
      (fun m => (m, caseWeight tp s.cases m))).lookup n).getD 1)
    = (n, caseWeight tp s.cases n)
  rw [lookup_map_pair (fun m => caseWeight tp s.cases m) ((caseNames files).dedup) n hn]
  rfl

theorem buildZipTree_idem (files : List (String × Blob)) (s : ProblemSettings)
    (tp : Option (List (String × Nat))) :
    buildZipTree (buildZipTree files s tp)
      { s with cases := derivedCases files tp s.cases } none
      = buildZipTree files s tp := by
  show ("settings.json", Blob.settings
      { s with cases := derivedCases (buildZipTree files s tp) none (derivedCases files tp s.cases) })
    :: zipTreeCore (buildZipTree files s tp)
    = ("settings.json", Blob.settings { s with cases := derivedCases files tp s.cases })
    :: zipTreeCore files
  rw [derivedCases_buildZipTree files s tp, zipTreeCore_buildZipTree files s tp]

theorem convertZip_buildZipTree (files : List (String × Blob)) (s : ProblemSettings)
    (tp : Option (List (String × Nat))) :
    convertZip (buildZipTree files s tp) = Except.ok (buildZipTree files s tp) := by
  have hset : (buildZipTree files s tp).lookup "settings.json"
      = some (Blob.settings { s with cases := derivedCases files tp s.cases }) := rfl
  have htp : (buildZipTree files s tp).lookup "testplan" = none := by
    have h1 : (("testplan" : String) == "settings.json") = false := by decide
    show List.lookup "testplan" (("settings.json", Blob.settings
        { s with cases := derivedCases files tp s.cases }) :: zipTreeCore files) = none
    simp only [List.lookup, h1]
    refine lookup_filter_none files "testplan" _ ?_
    intro e he
    have h2 : (e.1 != "testplan") = true := by
      cases hb : (e.1 != "settings.json") <;> cases hc : (e.1 != "testplan") <;>
        rw [hb, hc] at he <;> first | rfl | cases he
    refine beq_eq_false_iff_ne.mpr ?_
    intro hcontra
    rw [← hcontra] at h2
    simp at h2
  unfold convertZip
  simp only [hset]
  unfold convertZipWith
  simp only [htp]
  rw [buildZipTree_idem files s tp]

theorem convertZipWith_ok (files : List (String × Blob)) (s : ProblemSettings)
    (out : List (String × Blob)) (h : convertZipWith files s = Except.ok out) :
    convertZip out = Except.ok out := by
  unfold convertZipWith at h
  cases htp : files.lookup "testplan" with
  | none =>
    simp only [htp, Except.ok.injEq] at h
    rw [← h]
    exact convertZip_buildZipTree files s none
  | some b =>
    cases b with
    | raw tpStr =>
      simp only [htp] at h
      cases hpt : parseTestplan tpStr with
      | none => simp only [hpt] at h; cases h
      | some tp =>
        simp only [hpt] at h
        by_cases hall : (tp.all (fun e => (caseNames files).contains e.1)) = true
        · rw [if_pos hall] at h
          simp only [Except.ok.injEq] at h
          rw [← h]
          exact convertZip_buildZipTree files s (some tp)
        · rw [if_neg hall] at h
          cases h
    | settings s2 => simp only [htp] at h; cases h
    | ledger l2 => simp only [htp] at h; cases h
    | comments c2 => simp only [htp] at h; cases h
    | config c2 => simp only [htp] at h; cases h

/-- C7: zip ingestion is idempotent on tree identity — re-ingesting a
canonical ingested tree (a zip whose effective content equals the
current master) yields the identical tree; a zip omitting
`settings.json` yields the same tree as one carrying the default
settings blob explicitly; and a zip adding the default-equivalent
testplan yields the same tree as the default. -/
theorem zipIngestIdem :
    (∀ files out : List (String × Blob), convertZip files = Except.ok out →
      convertZip out = Except.ok out) ∧
    convertZip sampleZipWithSettings = convertZip sampleZipBase ∧
    convertZip sampleZipWithTestplan = convertZip sampleZipBase := by
  refine ⟨?_, by decide, by decide⟩
  intro files out h
  unfold convertZip at h
  cases hset : files.lookup "settings.json" with
  | none =>
    simp only [hset] at h
    exact convertZipWith_ok files defaultSettings out h
  | some b =>
    cases b with
    | settings s =>
      simp only [hset] at h
      exact convertZipWith_ok files s out h
    | raw s2 => simp only [hset] at h; cases h
    | ledger l2 => simp only [hset] at h; cases h
    | comments c2 => simp only [hset] at h; cases h
    | config c2 => simp only [hset] at h; cases h

/-- Witness for C7: re-ingesting the canonical tree of the sample zip
reproduces it exactly. -/
theorem zipIngestIdemWitness :
    convertZip sampleZipCanonical = Except.ok sampleZipCanonical :=
  zipIngestIdem.1 sampleZipBase sampleZipCanonical (by decide)
